import Mathlib

/-!
Shallow embedding of the FIFO cost-basis ledger of the ordinals-tax-tracker
scripts.  Two core algorithms are embedded:

* Policy A, amount-denominated global FIFO: the transaction loop of
  `generate_enhanced_ledger` in `scripts/enhance_ledger_with_btc.py`
  (lines 180-291).
* Policy B, inscription-matched FIFO: the transaction loop of
  `generate_tax_ledger` in `scripts/generate_tax_ledger.py` (lines 69-182).

Monetary amounts are modelled as exact rationals, following the stated
numeric semantics of the design (BTC-denominated decimal arithmetic with no
mid-computation rounding).  Timestamps are modelled as natural numbers; a
transaction whose timestamp fails to parse carries `none` and is skipped by
the loop, mirroring the `if not tx_date: continue` guard.  The Python dict
`cost_basis_by_inscription` is modelled as a total function from inscription
ids to lists; the two code paths it distinguishes beyond that (key absent
versus key present with empty list) produce identical results in the source,
so the function model is observationally faithful.
-/

/-- A normalized transaction record, as consumed by the ledger loops.
Field `type_` carries the raw `type` string (RECEIVE, SEND or anything
else, which both loops treat as the unknown case). -/
structure Transaction where
  txid : String
  type_ : String
  date : Option Nat
  inscription_id : String
  counterpart_address : String
  confirmed : Bool
  btc_amount : ℚ
  fee_btc : ℚ
deriving Repr, DecidableEq

/-- One row of the generated ledger, keeping the numeric and identifying
fields of the Python `ledger_entries` dictionaries. -/
structure LedgerEntry where
  date : Nat
  type_ : String
  debit_btc : ℚ
  credit_btc : ℚ
  fee_btc : ℚ
  balance_btc : ℚ
  cost_basis : ℚ
  gain_loss : ℚ
  inscription_id : String
  txid : String
deriving Repr, DecidableEq

/-- The aggregate statistics kept by both scripts in their `stats` dict. -/
structure LedgerStats where
  total_received : Nat
  total_sent : Nat
  total_btc_received : ℚ
  total_btc_sent : ℚ
  total_fees_paid : ℚ
  total_gains : ℚ
  total_losses : ℚ
deriving Repr, DecidableEq

def initStats : LedgerStats := ⟨0, 0, 0, 0, 0, 0, 0⟩

/-- A cost-basis lot of the amount-FIFO queue of
`enhance_ledger_with_btc.py` (a dict with keys date, amount, cost_basis). -/
structure ALot where
  date : Nat
  amount : ℚ
  cost_basis : ℚ
deriving Repr, DecidableEq

/-- Result of the FIFO consumption while-loop: accumulated cost basis used,
accumulated gain or loss, the value of `remaining_to_sell` when the loop
exits, and the queue left behind. -/
structure SellOut where
  cost_basis_used : ℚ
  gain_loss : ℚ
  remaining : ℚ
  queue : List ALot
deriving Repr, DecidableEq

/-- The while-loop of `enhance_ledger_with_btc.py` lines 222-237:
`while remaining_to_sell > 0 and cost_basis_queue:` with full or partial
consumption of the oldest lot. -/
def sellLoop : ℚ → List ALot → SellOut
  | rem, [] => ⟨0, 0, rem, []⟩
  | rem, lot :: rest =>
    if rem ≤ 0 then ⟨0, 0, rem, lot :: rest⟩
    else if lot.amount ≤ rem then
      let r := sellLoop (rem - lot.amount) rest
      ⟨lot.cost_basis + r.cost_basis_used, (lot.amount - lot.cost_basis) + r.gain_loss,
       r.remaining, r.queue⟩
    else
      let portion := rem / lot.amount
      let bp := lot.cost_basis * portion
      ⟨bp, rem - bp, 0, ⟨lot.date, lot.amount - rem, lot.cost_basis - bp⟩ :: rest⟩

/-- Result of processing one SEND under policy A. -/
structure SendOut where
  cost_basis_used : ℚ
  gain_loss : ℚ
  queue : List ALot
deriving Repr, DecidableEq

/-- SEND processing of `enhance_ledger_with_btc.py` lines 221-241: the FIFO
loop followed by `if remaining_to_sell > 0: gain_loss += remaining_to_sell`. -/
def processSend (proceeds : ℚ) (q : List ALot) : SendOut :=
  let r := sellLoop proceeds q
  ⟨r.cost_basis_used,
   if 0 < r.remaining then r.gain_loss + r.remaining else r.gain_loss,
   r.queue⟩

/-- Running state of the policy A loop: the FIFO queue, the running BTC
balance, the accumulated ledger entries and the statistics. -/
structure AState where
  queue : List ALot
  runBal : ℚ
  entries : List LedgerEntry
  stats : LedgerStats

def initA : AState := ⟨[], 0, [], initStats⟩

/-- One iteration of the transaction loop of `generate_enhanced_ledger`
(`enhance_ledger_with_btc.py` lines 180-291).  A transaction whose
timestamp did not parse is skipped.  RECEIVE pushes a lot exactly when
`btc_amount > 0`; SEND consumes via `processSend`; any other type
contributes zero debit and credit.  The entry field `cost_basis` is
`cost_basis_used` for SEND and `btc_amount` otherwise (line 284), and
`gain_loss` is nonzero only for SEND (line 285).  Fees are added to
`total_fees_paid` only in the SEND branch (line 245). -/
def stepA (σ : AState) (tx : Transaction) : AState :=
  match tx.date with
  | none => σ
  | some d =>
    if tx.type_ = "RECEIVE" then
      let debit := tx.btc_amount
      let queue' := if 0 < tx.btc_amount then σ.queue ++ [⟨d, tx.btc_amount, tx.btc_amount⟩]
                    else σ.queue
      let bal := σ.runBal + debit
      ⟨queue', bal,
       σ.entries ++ [⟨d, tx.type_, debit, 0, tx.fee_btc, bal, tx.btc_amount, 0,
                      tx.inscription_id, tx.txid⟩],
       { σ.stats with total_received := σ.stats.total_received + 1,
                      total_btc_received := σ.stats.total_btc_received + debit }⟩
    else if tx.type_ = "SEND" then
      let credit := tx.btc_amount
      let r := processSend credit σ.queue
      let bal := σ.runBal - credit
      ⟨r.queue, bal,
       σ.entries ++ [⟨d, tx.type_, 0, credit, tx.fee_btc, bal, r.cost_basis_used, r.gain_loss,
                      tx.inscription_id, tx.txid⟩],
       { σ.stats with total_sent := σ.stats.total_sent + 1,
                      total_btc_sent := σ.stats.total_btc_sent + credit,
                      total_fees_paid := σ.stats.total_fees_paid + tx.fee_btc,
                      total_gains := if 0 < r.gain_loss then σ.stats.total_gains + r.gain_loss
                                     else σ.stats.total_gains,
                      total_losses := if 0 < r.gain_loss then σ.stats.total_losses
                                      else σ.stats.total_losses + |r.gain_loss| }⟩
    else
      ⟨σ.queue, σ.runBal,
       σ.entries ++ [⟨d, tx.type_, 0, 0, tx.fee_btc, σ.runBal, tx.btc_amount, 0,
                      tx.inscription_id, tx.txid⟩],
       σ.stats⟩

/-- The whole policy A transaction loop over an already sorted sequence. -/
def processA (txs : List Transaction) : AState :=
  txs.foldl stepA initA

/-- A lot of the global queue `cost_basis_queue` of `generate_tax_ledger.py`
(a dict with keys date, cost_basis, inscription_id, txid). -/
structure BLot where
  date : Nat
  cost_basis : ℚ
  inscription_id : String
  txid : String
deriving Repr, DecidableEq

/-- An element of a per-inscription queue of `cost_basis_by_inscription`
(a dict with keys date, cost_basis, txid). -/
structure BPur where
  date : Nat
  cost_basis : ℚ
  txid : String
deriving Repr, DecidableEq

/-- The lot state of `generate_tax_ledger`: the global FIFO queue and the
per-inscription queues. -/
structure BCore where
  queue : List BLot
  byIns : String → List BPur

/-- RECEIVE branch of `generate_tax_ledger.py` lines 88-108: a lot is pushed
onto the global queue and onto the per-inscription queue exactly when
`debit_btc > 0 and inscription_id`. -/
def receiveB (core : BCore) (tx : Transaction) (d : Nat) : BCore :=
  if 0 < tx.btc_amount ∧ tx.inscription_id ≠ "" then
    ⟨core.queue ++ [⟨d, tx.btc_amount, tx.inscription_id, tx.txid⟩],
     fun s => if s = tx.inscription_id then core.byIns s ++ [⟨d, tx.btc_amount, tx.txid⟩]
              else core.byIns s⟩
  else core

/-- Result of the SEND matching of policy B. -/
structure BSendOut where
  core : BCore
  cost_basis_used : ℚ
  gain_loss : ℚ

/-- SEND branch of `generate_tax_ledger.py` lines 119-141: with a known
inscription id whose queue is non-empty, pop the earliest purchase of that
inscription, remove every matching lot from the global queue
(lines 127-129), and realize `credit - cost_basis`; otherwise the whole
proceeds are gain with zero cost basis. -/
def sendB (core : BCore) (insc : String) (credit : ℚ) : BSendOut :=
  if insc = "" then ⟨core, 0, credit⟩
  else
    match core.byIns insc with
    | [] => ⟨core, 0, credit⟩
    | purchase :: rest =>
      ⟨⟨core.queue.filter (fun l => ¬ (l.inscription_id = insc ∧ l.txid = purchase.txid)),
        fun s => if s = insc then rest else core.byIns s⟩,
       purchase.cost_basis, credit - purchase.cost_basis⟩

/-- Running state of the policy B loop. -/
structure BState where
  core : BCore
  runBal : ℚ
  entries : List LedgerEntry
  stats : LedgerStats

def initB : BState := ⟨⟨[], fun _ => []⟩, 0, [], initStats⟩

/-- One iteration of the transaction loop of `generate_tax_ledger`
(`generate_tax_ledger.py` lines 69-182).  The entry field `cost_basis` is
`cost_basis_used` for SEND, `debit_btc` for RECEIVE and `0.0` otherwise
(line 176); fees are added to `total_fees_paid` only in the SEND branch
(line 145). -/
def stepB (σ : BState) (tx : Transaction) : BState :=
  match tx.date with
  | none => σ
  | some d =>
    if tx.type_ = "RECEIVE" then
      let debit := tx.btc_amount
      let core' := receiveB σ.core tx d
      let bal := σ.runBal + debit
      ⟨core', bal,
       σ.entries ++ [⟨d, tx.type_, debit, 0, tx.fee_btc, bal, debit, 0,
                      tx.inscription_id, tx.txid⟩],
       { σ.stats with total_received := σ.stats.total_received + 1,
                      total_btc_received := σ.stats.total_btc_received + debit }⟩
    else if tx.type_ = "SEND" then
      let credit := tx.btc_amount
      let r := sendB σ.core tx.inscription_id credit
      let bal := σ.runBal - credit
      ⟨r.core, bal,
       σ.entries ++ [⟨d, tx.type_, 0, credit, tx.fee_btc, bal, r.cost_basis_used, r.gain_loss,
                      tx.inscription_id, tx.txid⟩],
       { σ.stats with total_sent := σ.stats.total_sent + 1,
                      total_btc_sent := σ.stats.total_btc_sent + credit,
                      total_fees_paid := σ.stats.total_fees_paid + tx.fee_btc,
                      total_gains := if 0 < r.gain_loss then σ.stats.total_gains + r.gain_loss
                                     else σ.stats.total_gains,
                      total_losses := if 0 < r.gain_loss then σ.stats.total_losses
                                      else σ.stats.total_losses + |r.gain_loss| }⟩
    else
      ⟨σ.core, σ.runBal,
       σ.entries ++ [⟨d, tx.type_, 0, 0, tx.fee_btc, σ.runBal, 0, 0,
                      tx.inscription_id, tx.txid⟩],
       σ.stats⟩

/-- The whole policy B transaction loop over an already sorted sequence. -/
def processB (txs : List Transaction) : BState :=
  txs.foldl stepB initB

/-- The stable sort by parsed timestamp performed before the loop
(`generate_tax_ledger.py` line 49); an unparsable timestamp sorts first. -/
def sortByTimestamp (txs : List Transaction) : List Transaction :=
  txs.mergeSort (fun a b => a.date.getD 0 ≤ b.date.getD 0)

/-- The function boundary of `generate_tax_ledger.py` lines 36-244 as seen
by a caller: with an empty transaction collection the run stops early
producing no ledger (lines 44-46); otherwise the sorted sequence is folded
into entries and statistics. -/
def generate_tax_ledger (txs : List Transaction) : Option (List LedgerEntry × LedgerStats) :=
  if txs.isEmpty then none
  else
    let σ := processB (sortByTimestamp txs)
    some (σ.entries, σ.stats)

/-- Sum of the `amount` fields of an amount-FIFO queue. -/
def sumAmount (q : List ALot) : ℚ := (q.map ALot.amount).sum

/-- Sum of the `cost_basis` fields of an amount-FIFO queue. -/
def sumBasisA (q : List ALot) : ℚ := (q.map ALot.cost_basis).sum

/-- Unrealized cost basis still held in the global policy B queue. -/
def unrealized (q : List BLot) : ℚ := (q.map BLot.cost_basis).sum

def sumDebits (es : List LedgerEntry) : ℚ := (es.map LedgerEntry.debit_btc).sum

def sumCredits (es : List LedgerEntry) : ℚ := (es.map LedgerEntry.credit_btc).sum

def sumGainLoss (es : List LedgerEntry) : ℚ := (es.map LedgerEntry.gain_loss).sum

/-- Sum of the fee field over all ledger entries. -/
def sumFees (es : List LedgerEntry) : ℚ := (es.map LedgerEntry.fee_btc).sum

/-- Sum of the fee field over the SEND entries only. -/
def sumSendFees (es : List LedgerEntry) : ℚ :=
  ((es.filter (fun e => e.type_ = "SEND")).map LedgerEntry.fee_btc).sum

/-- The running-balance recurrence: starting from balance `b`, each entry
records the previous balance plus its debit minus its credit. -/
def chainFrom : ℚ → List LedgerEntry → Prop
  | _, [] => True
  | b, e :: rest => e.balance_btc = b + e.debit_btc - e.credit_btc ∧ chainFrom e.balance_btc rest

/-- The balance recorded by the last entry, or the start balance when there
are no entries. -/
def endBal : ℚ → List LedgerEntry → ℚ
  | b, [] => b
  | _, e :: rest => endBal e.balance_btc rest

/-- The matching key of a global policy B lot. -/
def lotPair (l : BLot) : String × String := (l.inscription_id, l.txid)

/-- Projection of a global lot to the shape stored per inscription. -/
def projB (l : BLot) : BPur := ⟨l.date, l.cost_basis, l.txid⟩

/-- Structural invariant of the policy B lot state: the per-inscription
queues are exactly the inscription-wise slices of the global queue, and no
two global lots share the same (inscription, txid) key. -/
def BInv (c : BCore) : Prop :=
  (∀ s, (c.queue.filter (fun l => l.inscription_id = s)).map projB = c.byIns s) ∧
  (c.queue.map lotPair).Nodup

/-- The (inscription, txid) keys of the RECEIVE transactions that create a
lot: parsable timestamp, positive amount and non-empty inscription id. -/
def receivePairs (txs : List Transaction) : List (String × String) :=
  (txs.filter (fun tx =>
    tx.date.isSome = true ∧ tx.type_ = "RECEIVE" ∧ 0 < tx.btc_amount ∧ tx.inscription_id ≠ "")).map
    (fun tx => (tx.inscription_id, tx.txid))

/-- Scenario input: RECEIVE of 0.01 BTC on day 1. -/
def rcv1 : Transaction := ⟨"r1", "RECEIVE", some 1, "", "", true, 0.01, 0⟩

/-- Scenario input: RECEIVE of 0.02 BTC on day 2. -/
def rcv2 : Transaction := ⟨"r2", "RECEIVE", some 2, "", "", true, 0.02, 0⟩

/-- Scenario input: SEND with proceeds 0.015 BTC on day 3. -/
def send15 : Transaction := ⟨"s1", "SEND", some 3, "", "", true, 0.015, 0⟩

/-- Scenario input: RECEIVE of inscription A at cost 0.01 BTC. -/
def rcvA : Transaction := ⟨"rA", "RECEIVE", some 1, "A", "", true, 0.01, 0⟩

/-- Scenario input: SEND of inscription A with proceeds 0.05 BTC. -/
def sendA : Transaction := ⟨"sA", "SEND", some 2, "A", "", true, 0.05, 0⟩

/-- Scenario input: RECEIVE of inscription A with zero recorded amount. -/
def rcvA0 : Transaction := ⟨"r0", "RECEIVE", some 1, "A", "", true, 0, 0⟩

/-- Scenario input: RECEIVE with a nonzero network fee and no amount. -/
def rcvFee : Transaction := ⟨"rf", "RECEIVE", some 1, "", "", true, 0, 1⟩

/-- A concrete policy B lot state holding one lot of inscription A. -/
def coreOneA : BCore :=
  ⟨[⟨1, 0.01, "A", "rA"⟩], fun s => if s = "A" then [⟨1, 0.01, "rA"⟩] else []⟩

/-- A concrete policy B lot state holding one lot each of inscriptions A
and B. -/
def coreTwo : BCore :=
  ⟨[⟨1, 0.01, "A", "rA"⟩, ⟨2, 0.02, "B", "rB"⟩],
   fun s => if s = "A" then [⟨1, 0.01, "rA"⟩]
            else if s = "B" then [⟨2, 0.02, "rB"⟩] else []⟩

/-- Bookkeeping invariant of the policy A fold: the entries satisfy the
running-balance recurrence from 0, the running balance is the balance of
the last entry and equals total debits minus total credits, the gain and
loss totals partition the per-entry gain_loss sum, and the fee total is the
fee sum of the SEND entries. -/
def invA (σ : AState) : Prop :=
  chainFrom 0 σ.entries ∧ σ.runBal = endBal 0 σ.entries ∧
  σ.runBal = sumDebits σ.entries - sumCredits σ.entries ∧
  σ.stats.total_gains - σ.stats.total_losses = sumGainLoss σ.entries ∧
  σ.stats.total_fees_paid = sumSendFees σ.entries

/-- Bookkeeping invariant of the policy B fold, identical in shape to the
policy A one. -/
def invB (σ : BState) : Prop :=
  chainFrom 0 σ.entries ∧ σ.runBal = endBal 0 σ.entries ∧
  σ.runBal = sumDebits σ.entries - sumCredits σ.entries ∧
  σ.stats.total_gains - σ.stats.total_losses = sumGainLoss σ.entries ∧
  σ.stats.total_fees_paid = sumSendFees σ.entries

/-- C1: under policy A, the sequence RECEIVE 0.01, RECEIVE 0.02, SEND with
proceeds 0.015 consumes lot 1 fully and one quarter of lot 2, yielding
cost_basis_consumed 0.015 and gain_loss 0 on the SEND entry, and leaves
exactly one lot with remaining quantity 0.015 and cost_basis 0.015. -/
theorem policyA_partial_consumption_scenario :
    (processA [rcv1, rcv2, send15]).entries.map (fun e => (e.cost_basis, e.gain_loss)) =
      [(0.01, 0), (0.02, 0), (0.015, 0)] ∧
    (processA [rcv1, rcv2, send15]).queue = [⟨2, 0.015, 0.015⟩] := by
  norm_num [processA, stepA, processSend, sellLoop, initA, initStats, rcv1, rcv2, send15]
  simp

/-- C9: the ledger computation produces no ledger exactly when the input
transaction collection is empty; the empty collection stops the run with
the no-output result propagated to the caller. -/
theorem empty_input_stops_run (txs : List Transaction) :
    generate_tax_ledger txs = none ↔ txs = [] := by
  cases txs <;> simp [generate_tax_ledger]

/-- C6 counterexample: a single RECEIVE entry carrying a fee of 1 BTC shows
that total_fees_paid is not the sum of fees over all entries; the RECEIVE
branch never accumulates its fee. -/
theorem fees_not_summed_over_all_entries :
    (processB [rcvFee]).stats.total_fees_paid ≠ sumFees (processB [rcvFee]).entries := by
  norm_num [processB, stepB, receiveB, initB, initStats, rcvFee, sumFees]

/-- C8 counterexample: a RECEIVE of inscription A with btc_amount 0 pushes
no lot at all, neither onto the per-inscription queue nor onto the global
queue, contradicting the claim that a lot is pushed regardless of whether
the amount is zero or positive. -/
theorem receive_zero_amount_pushes_no_lot :
    (processB [rcvA0]).core.byIns "A" = [] ∧ (processB [rcvA0]).core.queue = [] := by
  norm_num [processB, stepB, receiveB, initB, initStats, rcvA0]

theorem sumAmount_nonneg (q : List ALot) (h : ∀ l ∈ q, 0 < l.amount) : 0 ≤ sumAmount q := by
  induction q with
  | nil => simp [sumAmount]
  | cons l rest ih =>
    have h1 := h l (by simp)
    have h2 : 0 ≤ sumAmount rest := ih (fun x hx => h x (by simp [hx]))
    simp only [sumAmount, List.map_cons, List.sum_cons]
    have h3 : (0 : ℚ) ≤ l.amount := le_of_lt h1
    simpa [sumAmount] using add_nonneg h3 h2

theorem sellLoop_exhausts (q : List ALot) : ∀ p : ℚ, (∀ l ∈ q, 0 < l.amount) →
    sumAmount q < p →
    sellLoop p q = ⟨sumBasisA q, sumAmount q - sumBasisA q, p - sumAmount q, []⟩ := by
  induction q with
  | nil => intro p h hs; simp [sellLoop, sumAmount, sumBasisA]
  | cons l rest ih =>
    intro p h hs
    have hl : 0 < l.amount := h l (by simp)
    have hrest : ∀ x ∈ rest, 0 < x.amount := fun x hx => h x (by simp [hx])
    have hrnn : 0 ≤ sumAmount rest := sumAmount_nonneg rest hrest
    have hsum : sumAmount (l :: rest) = l.amount + sumAmount rest := by
      simp [sumAmount]
    rw [hsum] at hs
    have hp : 0 < p := by linarith
    have hle : l.amount ≤ p := by linarith
    have hs' : sumAmount rest < p - l.amount := by linarith
    simp only [sellLoop]
    rw [if_neg (by linarith), if_pos hle, ih (p - l.amount) hrest hs']
    simp only [SellOut.mk.injEq, sumAmount, sumBasisA, List.map_cons, List.sum_cons]
    refine ⟨by ring_nf, by ring, by ring, trivial⟩

/-- C2: under policy B, a SEND whose inscription id has at least one
remaining lot in that inscription's own queue pops the earliest lot of that
same inscription, leaves every other inscription queue untouched, and
returns cost_basis_consumed equal to the popped lot's cost_basis and
gain_loss equal to proceeds minus cost_basis_consumed; in particular,
RECEIVE of inscription A at cost 0.01 followed by SEND of inscription A
with proceeds 0.05 yields cost_basis_consumed 0.01 and gain_loss 0.04. -/
theorem policyB_matched_send (core : BCore) (insc : String) (credit : ℚ)
    (purchase : BPur) (rest : List BPur)
    (hne : insc ≠ "") (hq : core.byIns insc = purchase :: rest) :
    (sendB core insc credit).cost_basis_used = purchase.cost_basis ∧
    (sendB core insc credit).gain_loss = credit - purchase.cost_basis ∧
    (sendB core insc credit).core.byIns insc = rest ∧
    (∀ s, s ≠ insc → (sendB core insc credit).core.byIns s = core.byIns s) ∧
    (processB [rcvA, sendA]).entries.map (fun e => (e.cost_basis, e.gain_loss)) =
      [(0.01, 0), (0.01, 0.04)] := by
  refine ⟨by simp [sendB, hne, hq], by simp [sendB, hne, hq], by simp [sendB, hne, hq],
    fun s hs => by simp [sendB, hne, hq, hs], ?_⟩
  norm_num [processB, stepB, receiveB, sendB, initB, initStats, rcvA, sendA]
  simp
  norm_num

/-- C2 witness: the general theorem applied to the lot state produced by the
RECEIVE of the scenario. -/
theorem policyB_matched_send_witness :
    (sendB (processB [rcvA]).core "A" 0.05).cost_basis_used = 0.01 ∧
    (sendB (processB [rcvA]).core "A" 0.05).gain_loss = 0.04 := by
  have hq : (processB [rcvA]).core.byIns "A" = [⟨1, 0.01, "rA"⟩] := by
    norm_num [processB, stepB, receiveB, initB, initStats, rcvA]
    simp
  have h := policyB_matched_send (processB [rcvA]).core "A" 0.05 ⟨1, 0.01, "rA"⟩ []
    (by simp) hq
  refine ⟨h.1, ?_⟩
  rw [h.2.1]
  norm_num

/-- C7: a disposal exceeding the available cost basis is not an error.
Under policy A, when the SEND proceeds exceed the total quantity of the lot
queue, the queue is consumed entirely and the uncovered remainder is booked
as pure gain on top of the per-lot gains, with no additional cost basis, so
the total gain is proceeds minus the consumed basis.  Under policy B, a
SEND with an unknown inscription id or with no remaining lot for that id
books the whole proceeds as gain with zero cost basis and leaves the lot
state unchanged. -/
theorem uncovered_disposal_is_pure_gain :
    (∀ (p : ℚ) (q : List ALot), (∀ l ∈ q, 0 < l.amount) → sumAmount q < p →
      processSend p q = ⟨sumBasisA q, p - sumBasisA q, []⟩) ∧
    (∀ (core : BCore) (insc : String) (credit : ℚ),
      insc = "" ∨ core.byIns insc = [] →
      sendB core insc credit = ⟨core, 0, credit⟩) := by
  constructor
  · intro p q h hs
    have hnn : 0 ≤ sumAmount q := sumAmount_nonneg q h
    unfold processSend
    rw [sellLoop_exhausts q p h hs]
    simp only [SendOut.mk.injEq]
    rw [if_pos (by linarith)]
    refine ⟨by simp, by ring, by simp⟩
  · intro core insc credit h
    rcases h with h1 | h2
    · simp [sendB, h1]
    · by_cases h1 : insc = ""
      · simp [sendB, h1]
      · simp [sendB, h1, h2]

/-- C7 witness: proceeds 0.02 against one lot of 0.01 realizes basis 0.01
and gain 0.01 and empties the queue, and the SEND of the never-received
inscription C is a full gain with the state unchanged. -/
theorem uncovered_disposal_is_pure_gain_witness :
    processSend 0.02 [⟨1, 0.01, 0.01⟩] = ⟨0.01, 0.01, []⟩ ∧
    sendB ⟨[], fun _ => []⟩ "C" 0.02 = ⟨⟨[], fun _ => []⟩, 0, 0.02⟩ := by
  constructor
  · have h := uncovered_disposal_is_pure_gain.1 0.02 [⟨1, 0.01, 0.01⟩]
      (by norm_num) (by norm_num [sumAmount])
    rw [h]
    norm_num [sumBasisA]
  · exact uncovered_disposal_is_pure_gain.2 ⟨[], fun _ => []⟩ "C" 0.02 (Or.inr rfl)

/-- C8 amended: under policy B, a RECEIVE pushes a lot onto the
per-inscription queue and onto the global queue exactly when its btc_amount
is strictly positive and its inscription id is non-empty; with a zero
amount or an empty inscription id the lot state is unchanged. -/
theorem receive_pushes_lot_iff_positive (core : BCore) (tx : Transaction) (d : Nat) :
    (0 < tx.btc_amount ∧ tx.inscription_id ≠ "" →
      (receiveB core tx d).queue
        = core.queue ++ [⟨d, tx.btc_amount, tx.inscription_id, tx.txid⟩] ∧
      (receiveB core tx d).byIns tx.inscription_id
        = core.byIns tx.inscription_id ++ [⟨d, tx.btc_amount, tx.txid⟩] ∧
      ∀ s, s ≠ tx.inscription_id → (receiveB core tx d).byIns s = core.byIns s) ∧
    (¬ (0 < tx.btc_amount ∧ tx.inscription_id ≠ "") → receiveB core tx d = core) := by
  constructor
  · intro h
    unfold receiveB
    rw [if_pos h]
    refine ⟨rfl, by simp, fun s hs => by simp [hs]⟩
  · intro h
    unfold receiveB
    rw [if_neg h]

/-- C8 witness: the amended theorem applied to a RECEIVE of inscription A
with positive amount and to one with zero amount. -/
theorem receive_pushes_lot_iff_positive_witness :
    (receiveB ⟨[], fun _ => []⟩ rcvA 1).queue = [⟨1, 0.01, "A", "rA"⟩] ∧
    receiveB ⟨[], fun _ => []⟩ rcvA0 1 = ⟨[], fun _ => []⟩ := by
  constructor
  · have h := (receive_pushes_lot_iff_positive ⟨[], fun _ => []⟩ rcvA 1).1
      ⟨by norm_num [rcvA], by simp [rcvA]⟩
    simpa [rcvA] using h.1
  · exact (receive_pushes_lot_iff_positive ⟨[], fun _ => []⟩ rcvA0 1).2 (by norm_num [rcvA0])

/-- C3: FIFO lot invariants of the policy A queue.  A SEND consumes lots
strictly from the front: the resulting queue is the input queue with a
prefix of fully-consumed lots removed, at most the new head partially
reduced (its quantity strictly decreased but still positive), and every
surviving lot keeps a positive quantity, so quantities only decrease, a lot
leaves the queue exactly when fully consumed and is never revisited.  A
RECEIVE only appends at the back and never touches existing lots. -/
theorem lot_queue_fifo_invariant :
    (∀ (q : List ALot) (rem : ℚ), (∀ l ∈ q, 0 < l.amount) → 0 ≤ rem →
      ∃ k ≤ q.length,
        ((sellLoop rem q).queue = q.drop k ∨
         ∃ lot tail a b, q.drop k = lot :: tail ∧ 0 < a ∧ a < lot.amount ∧
           (sellLoop rem q).queue = ⟨lot.date, a, b⟩ :: tail) ∧
        ∀ l ∈ (sellLoop rem q).queue, 0 < l.amount) ∧
    (∀ (σ : AState) (tx : Transaction) (d : Nat), tx.date = some d → tx.type_ = "RECEIVE" →
      (stepA σ tx).queue
        = σ.queue ++ (if 0 < tx.btc_amount then [⟨d, tx.btc_amount, tx.btc_amount⟩] else [])) := by
  constructor
  · intro q
    induction q with
    | nil =>
      intro rem hpos hrem
      exact ⟨0, by simp, Or.inl (by simp [sellLoop]), by simp [sellLoop]⟩
    | cons lot rest ih =>
      intro rem hpos hrem
      by_cases h0 : rem ≤ 0
      · refine ⟨0, by simp, Or.inl (by simp [sellLoop, h0]), ?_⟩
        simp only [sellLoop, if_pos h0]
        exact hpos
      · by_cases h1 : lot.amount ≤ rem
        · have hrest : ∀ x ∈ rest, 0 < x.amount := fun x hx => hpos x (by simp [hx])
          have hrem' : 0 ≤ rem - lot.amount := by linarith
          obtain ⟨k, hk, hstruct, hq⟩ := ih (rem - lot.amount) hrest hrem'
          have hqueue : (sellLoop rem (lot :: rest)).queue
              = (sellLoop (rem - lot.amount) rest).queue := by
            simp [sellLoop, h0, h1]
          refine ⟨k + 1, by simpa using Nat.succ_le_succ hk, ?_, ?_⟩
          · rw [hqueue, List.drop_succ_cons]
            exact hstruct
          · rw [hqueue]
            exact hq
        · have hlt : rem < lot.amount := lt_of_not_le h1
          have hr : 0 < rem := lt_of_not_le h0
          refine ⟨0, Nat.zero_le _,
            Or.inr ⟨lot, rest, lot.amount - rem,
              lot.cost_basis - lot.cost_basis * (rem / lot.amount), by simp,
              by linarith, by linarith, by simp [sellLoop, h0, h1]⟩, ?_⟩
          intro l hl
          simp only [sellLoop, if_neg h0, if_neg h1, List.mem_cons] at hl
          rcases hl with h | h
          · rw [h]
            simpa using by linarith
          · exact hpos l (by simp [h])
  · intro σ tx d hd ht
    simp only [stepA, hd, ht, if_pos]
    split <;> simp

/-- C3 witness: the invariant applied to a concrete partial consumption and
a concrete RECEIVE append. -/
theorem lot_queue_fifo_invariant_witness :
    (∃ k ≤ ([⟨1, 1, 1⟩] : List ALot).length,
      ((sellLoop (1/2) [⟨1, 1, 1⟩]).queue = ([⟨1, 1, 1⟩] : List ALot).drop k ∨
       ∃ lot tail a b, ([⟨1, 1, 1⟩] : List ALot).drop k = lot :: tail ∧ 0 < a ∧ a < lot.amount ∧
         (sellLoop (1/2) [⟨1, 1, 1⟩]).queue = ⟨lot.date, a, b⟩ :: tail) ∧
      ∀ l ∈ (sellLoop (1/2) [⟨1, 1, 1⟩]).queue, 0 < l.amount) ∧
    (stepA initA rcv1).queue
      = initA.queue ++ (if 0 < rcv1.btc_amount then [⟨1, rcv1.btc_amount, rcv1.btc_amount⟩] else []) := by
  constructor
  · exact lot_queue_fifo_invariant.1 [⟨1, 1, 1⟩] (1/2) (by norm_num) (by norm_num)
  · exact lot_queue_fifo_invariant.2 initA rcv1 1 rfl rfl

theorem chainFrom_append (b : ℚ) (es : List LedgerEntry) (e : LedgerEntry)
    (h : chainFrom b es) (he : e.balance_btc = endBal b es + e.debit_btc - e.credit_btc) :
    chainFrom b (es ++ [e]) := by
  induction es generalizing b with
  | nil => exact ⟨he, trivial⟩
  | cons e0 rest ih =>
    obtain ⟨h1, h2⟩ := h
    exact ⟨h1, ih e0.balance_btc h2 he⟩

theorem endBal_append (b : ℚ) (es : List LedgerEntry) (e : LedgerEntry) :
    endBal b (es ++ [e]) = e.balance_btc := by
  induction es generalizing b with
  | nil => rfl
  | cons e0 rest ih => exact ih e0.balance_btc

theorem sumDebits_append (es : List LedgerEntry) (e : LedgerEntry) :
    sumDebits (es ++ [e]) = sumDebits es + e.debit_btc := by
  simp [sumDebits]

theorem sumCredits_append (es : List LedgerEntry) (e : LedgerEntry) :
    sumCredits (es ++ [e]) = sumCredits es + e.credit_btc := by
  simp [sumCredits]

theorem sumGainLoss_append (es : List LedgerEntry) (e : LedgerEntry) :
    sumGainLoss (es ++ [e]) = sumGainLoss es + e.gain_loss := by
  simp [sumGainLoss]

theorem sumSendFees_append (es : List LedgerEntry) (e : LedgerEntry) :
    sumSendFees (es ++ [e]) = sumSendFees es + (if e.type_ = "SEND" then e.fee_btc else 0) := by
  simp only [sumSendFees, List.filter_append]
  split <;> simp_all [List.filter_cons]

theorem invA_step (σ : AState) (tx : Transaction) (h : invA σ) : invA (stepA σ tx) := by
  obtain ⟨hc, he, hb, hg, hf⟩ := h
  rcases hd : tx.date with _ | d
  · simpa only [invA, stepA, hd] using ⟨hc, he, hb, hg, hf⟩
  · simp only [invA, stepA, hd]
    by_cases h1 : tx.type_ = "RECEIVE"
    · rw [if_pos h1]
      refine ⟨chainFrom_append 0 σ.entries _ hc (by simp [← he]; try ring), ?_, ?_, ?_, ?_⟩
      · simp [endBal_append]
      · simp only [sumDebits_append, sumCredits_append]
        rw [hb]
        ring
      · simpa [sumGainLoss_append] using hg
      · simp [sumSendFees_append, h1, hf]
    · rw [if_neg h1]
      by_cases h2 : tx.type_ = "SEND"
      · rw [if_pos h2]
        refine ⟨chainFrom_append 0 σ.entries _ hc (by simp [← he]; try ring), ?_, ?_, ?_, ?_⟩
        · simp [endBal_append]
        · simp only [sumDebits_append, sumCredits_append]
          rw [hb]
          ring
        · simp only [sumGainLoss_append]
          by_cases h3 : 0 < (processSend tx.btc_amount σ.queue).gain_loss
          · rw [if_pos h3, if_pos h3]
            rw [← hg]
            ring
          · rw [if_neg h3, if_neg h3]
            have h4 : (processSend tx.btc_amount σ.queue).gain_loss ≤ 0 := le_of_not_lt h3
            rw [abs_of_nonpos h4, ← hg]
            ring
        · simp [sumSendFees_append, h2, hf]
      · rw [if_neg h2]
        refine ⟨chainFrom_append 0 σ.entries _ hc (by simp [← he]; try ring), ?_, ?_, ?_, ?_⟩
        · simp [endBal_append]
        · simp only [sumDebits_append, sumCredits_append]
          rw [hb]
          ring
        · simpa [sumGainLoss_append] using hg
        · simp [sumSendFees_append, h2, hf]

theorem invB_step (σ : BState) (tx : Transaction) (h : invB σ) : invB (stepB σ tx) := by
  obtain ⟨hc, he, hb, hg, hf⟩ := h
  rcases hd : tx.date with _ | d
  · simpa only [invB, stepB, hd] using ⟨hc, he, hb, hg, hf⟩
  · simp only [invB, stepB, hd]
    by_cases h1 : tx.type_ = "RECEIVE"
    · rw [if_pos h1]
      refine ⟨chainFrom_append 0 σ.entries _ hc (by simp [← he]; try ring), ?_, ?_, ?_, ?_⟩
      · simp [endBal_append]
      · simp only [sumDebits_append, sumCredits_append]
        rw [hb]
        ring
      · simpa [sumGainLoss_append] using hg
      · simp [sumSendFees_append, h1, hf]
    · rw [if_neg h1]
      by_cases h2 : tx.type_ = "SEND"
      · rw [if_pos h2]
        refine ⟨chainFrom_append 0 σ.entries _ hc (by simp [← he]; try ring), ?_, ?_, ?_, ?_⟩
        · simp [endBal_append]
        · simp only [sumDebits_append, sumCredits_append]
          rw [hb]
          ring
        · simp only [sumGainLoss_append]
          by_cases h3 : 0 < (sendB σ.core tx.inscription_id tx.btc_amount).gain_loss
          · rw [if_pos h3, if_pos h3]
            rw [← hg]
            ring
          · rw [if_neg h3, if_neg h3]
            have h4 : (sendB σ.core tx.inscription_id tx.btc_amount).gain_loss ≤ 0 :=
              le_of_not_lt h3
            rw [abs_of_nonpos h4, ← hg]
            ring
        · simp [sumSendFees_append, h2, hf]
      · rw [if_neg h2]
        refine ⟨chainFrom_append 0 σ.entries _ hc (by simp [← he]; try ring), ?_, ?_, ?_, ?_⟩
        · simp [endBal_append]
        · simp only [sumDebits_append, sumCredits_append]
          rw [hb]
          ring
        · simpa [sumGainLoss_append] using hg
        · simp [sumSendFees_append, h2, hf]

theorem invA_process (txs : List Transaction) : invA (processA txs) := by
  have hinit : invA initA := by
    refine ⟨trivial, rfl, by simp [initA, sumDebits, sumCredits], ?_, ?_⟩
    · simp [initA, initStats, sumGainLoss]
    · simp [initA, initStats, sumSendFees]
  have hfold : ∀ (l : List Transaction) (σ : AState), invA σ → invA (l.foldl stepA σ) := by
    intro l
    induction l with
    | nil => exact fun σ h => h
    | cons t ts ih => exact fun σ h => ih _ (invA_step σ t h)
  exact hfold txs initA hinit

theorem invB_process (txs : List Transaction) : invB (processB txs) := by
  have hinit : invB initB := by
    refine ⟨trivial, rfl, by simp [initB, sumDebits, sumCredits], ?_, ?_⟩
    · simp [initB, initStats, sumGainLoss]
    · simp [initB, initStats, sumSendFees]
  have hfold : ∀ (l : List Transaction) (σ : BState), invB σ → invB (l.foldl stepB σ) := by
    intro l
    induction l with
    | nil => exact fun σ h => h
    | cons t ts ih => exact fun σ h => ih _ (invB_step σ t h)
  exact hfold txs initB hinit

/-- C4: in both ledger generators the per-entry balances satisfy the
recurrence balance i = balance (i-1) + debit i - credit i with the balance
before the first entry equal to 0, and the final running balance equals the
sum of all debits minus the sum of all credits, exactly. -/
theorem running_balance_conservation :
    (∀ txs : List Transaction,
      chainFrom 0 (processB txs).entries ∧
      (processB txs).runBal = endBal 0 (processB txs).entries ∧
      (processB txs).runBal
        = sumDebits (processB txs).entries - sumCredits (processB txs).entries) ∧
    (∀ txs : List Transaction,
      chainFrom 0 (processA txs).entries ∧
      (processA txs).runBal = endBal 0 (processA txs).entries ∧
      (processA txs).runBal
        = sumDebits (processA txs).entries - sumCredits (processA txs).entries) := by
  constructor
  · intro txs
    obtain ⟨hc, he, hb, _, _⟩ := invB_process txs
    exact ⟨hc, he, hb⟩
  · intro txs
    obtain ⟨hc, he, hb, _, _⟩ := invA_process txs
    exact ⟨hc, he, hb⟩

/-- C5: in both ledger generators, total_gains minus total_losses equals
the sum of the per-entry gain_loss values over all entries, exactly. -/
theorem gain_loss_partition :
    (∀ txs : List Transaction,
      (processB txs).stats.total_gains - (processB txs).stats.total_losses
        = sumGainLoss (processB txs).entries) ∧
    (∀ txs : List Transaction,
      (processA txs).stats.total_gains - (processA txs).stats.total_losses
        = sumGainLoss (processA txs).entries) := by
  constructor
  · intro txs
    obtain ⟨_, _, _, hg, _⟩ := invB_process txs
    exact hg
  · intro txs
    obtain ⟨_, _, _, hg, _⟩ := invA_process txs
    exact hg

/-- C6 amended: in both ledger generators, total_fees_paid equals the sum
of fee_btc over the SEND entries only; fees of RECEIVE and UNKNOWN entries
are never accumulated. -/
theorem fees_summed_over_send_entries :
    (∀ txs : List Transaction,
      (processB txs).stats.total_fees_paid = sumSendFees (processB txs).entries) ∧
    (∀ txs : List Transaction,
      (processA txs).stats.total_fees_paid = sumSendFees (processA txs).entries) := by
  constructor
  · intro txs
    obtain ⟨_, _, _, _, hf⟩ := invB_process txs
    exact hf
  · intro txs
    obtain ⟨_, _, _, _, hf⟩ := invA_process txs
    exact hf

theorem filter_pop_spec (s : String) (P : BPur) (rest : List BPur) :
    ∀ q : List BLot, (q.map lotPair).Nodup →
    (q.filter (fun l => l.inscription_id = s)).map projB = P :: rest →
    ((q.filter (fun l => ¬ (l.inscription_id = s ∧ l.txid = P.txid))).filter
        (fun l => l.inscription_id = s)).map projB = rest ∧
    (∀ t, t ≠ s →
      (q.filter (fun l => ¬ (l.inscription_id = s ∧ l.txid = P.txid))).filter
          (fun l => l.inscription_id = t)
        = q.filter (fun l => l.inscription_id = t)) ∧
    (q.filter (fun l => ¬ (l.inscription_id = s ∧ l.txid = P.txid))).length + 1 = q.length ∧
    unrealized q
      = unrealized (q.filter (fun l => ¬ (l.inscription_id = s ∧ l.txid = P.txid)))
        + P.cost_basis := by
  intro q
  induction q with
  | nil => intro _ h; simp at h
  | cons l q ih =>
    intro hnd hmap
    rw [List.map_cons, List.nodup_cons] at hnd
    obtain ⟨hmem, hndq⟩ := hnd
    by_cases hs : l.inscription_id = s
    · have hfc : (l :: q).filter (fun x => x.inscription_id = s)
          = l :: q.filter (fun x => x.inscription_id = s) := by
        rw [List.filter_cons, if_pos (by simp [hs])]
      rw [hfc, List.map_cons] at hmap
      have hPl : projB l = P := (List.cons_eq_cons.mp hmap).1
      have hrest : (q.filter (fun x => x.inscription_id = s)).map projB = rest :=
        (List.cons_eq_cons.mp hmap).2
      have htx : l.txid = P.txid := by rw [← hPl]; rfl
      have hcb : l.cost_basis = P.cost_basis := by rw [← hPl]; rfl
      have hnone : ∀ x ∈ q, ¬ (x.inscription_id = s ∧ x.txid = P.txid) := by
        intro x hx hcon
        apply hmem
        have hpair : lotPair x = lotPair l := by
          simp only [lotPair]
          rw [hcon.1, hcon.2, hs, htx]
        rw [← hpair]
        exact List.mem_map_of_mem lotPair hx
      have hqf : q.filter (fun x => ¬ (x.inscription_id = s ∧ x.txid = P.txid)) = q := by
        apply List.filter_eq_self.mpr
        intro x hx
        simp only [decide_eq_true_eq]
        exact hnone x hx
      have hlf : (l :: q).filter (fun x => ¬ (x.inscription_id = s ∧ x.txid = P.txid)) = q := by
        rw [List.filter_cons, if_neg (by simp [hs, htx])]
        exact hqf
      refine ⟨?_, ?_, ?_, ?_⟩
      · rw [hlf]
        exact hrest
      · intro t ht
        rw [hlf, List.filter_cons, if_neg (by simp [hs]; exact ht.symm)]
      · rw [hlf]
        simp
      · rw [hlf]
        simp only [unrealized, List.map_cons, List.sum_cons]
        rw [hcb]
        ring
    · have hmap' : (q.filter (fun x => x.inscription_id = s)).map projB = P :: rest := by
        rw [List.filter_cons, if_neg (by simp [hs])] at hmap
        exact hmap
      obtain ⟨ih1, ih2, ih3, ih4⟩ := ih hndq hmap'
      have hlf : (l :: q).filter (fun x => ¬ (x.inscription_id = s ∧ x.txid = P.txid))
          = l :: q.filter (fun x => ¬ (x.inscription_id = s ∧ x.txid = P.txid)) := by
        rw [List.filter_cons, if_pos (by simp [hs])]
      refine ⟨?_, ?_, ?_, ?_⟩
      · rw [hlf, List.filter_cons, if_neg (by simp [hs])]
        exact ih1
      · intro t ht
        rw [hlf, List.filter_cons, List.filter_cons]
        by_cases hlt : l.inscription_id = t
        · rw [if_pos (by simp [hlt]), if_pos (by simp [hlt]), ih2 t ht]
        · rw [if_neg (by simp [hlt]), if_neg (by simp [hlt]), ih2 t ht]
      · rw [hlf]
        simp only [List.length_cons]
        omega
      · rw [hlf]
        simp only [unrealized, List.map_cons, List.sum_cons] at ih4 ⊢
        linarith

theorem sendB_queue_sublist (core : BCore) (insc : String) (credit : ℚ) :
    (sendB core insc credit).core.queue.Sublist core.queue := by
  unfold sendB
  by_cases h1 : insc = ""
  · rw [if_pos h1]
  · rw [if_neg h1]
    rcases hq : core.byIns insc with _ | ⟨P, rest⟩
    · simp only [hq]
      exact List.Sublist.refl _
    · simp only [hq]
      exact List.filter_sublist _

theorem BInv_sendB (core : BCore) (insc : String) (credit : ℚ) (h : BInv core) :
    BInv (sendB core insc credit).core := by
  by_cases h1 : insc = ""
  · simpa only [sendB, if_pos h1] using h
  · rcases hq : core.byIns insc with _ | ⟨P, rest⟩
    · have hcore : (sendB core insc credit).core = core := by
        simp [sendB, h1, hq]
      rw [hcore]
      exact h
    · have hmap : (core.queue.filter (fun l => l.inscription_id = insc)).map projB
          = P :: rest := by
        rw [h.1 insc, hq]
      obtain ⟨f1, f2, f3, f4⟩ := filter_pop_spec insc P rest core.queue h.2 hmap
      have hcore : (sendB core insc credit).core
          = ⟨core.queue.filter (fun l => ¬ (l.inscription_id = insc ∧ l.txid = P.txid)),
             fun t => if t = insc then rest else core.byIns t⟩ := by
        simp [sendB, h1, hq]
      rw [hcore]
      refine ⟨?_, ?_⟩
      · intro t
        dsimp only
        by_cases ht : t = insc
        · rw [ht, if_pos rfl]
          exact f1
        · rw [if_neg ht, f2 t ht]
          exact h.1 t
      · dsimp only
        exact List.Nodup.sublist (List.Sublist.map lotPair (List.filter_sublist _)) h.2

theorem receivePairs_cons (tx : Transaction) (txs : List Transaction) :
    receivePairs (tx :: txs)
      = (if tx.date.isSome = true ∧ tx.type_ = "RECEIVE" ∧ 0 < tx.btc_amount ∧
            tx.inscription_id ≠ ""
         then [(tx.inscription_id, tx.txid)] else []) ++ receivePairs txs := by
  by_cases hc : tx.date.isSome = true ∧ tx.type_ = "RECEIVE" ∧ 0 < tx.btc_amount ∧
      tx.inscription_id ≠ ""
  · simp [receivePairs, List.filter_cons, hc]
  · simp [receivePairs, List.filter_cons, hc]

theorem BInv_fold : ∀ (txs : List Transaction) (σ : BState), BInv σ.core →
    (σ.core.queue.map lotPair ++ receivePairs txs).Nodup →
    BInv ((txs.foldl stepB σ).core) := by
  intro txs
  induction txs with
  | nil => intro σ h _; exact h
  | cons tx rest ih =>
    intro σ hinv hnd
    rw [List.foldl_cons]
    rcases hd : tx.date with _ | d
    · have hstep : stepB σ tx = σ := by simp [stepB, hd]
      rw [hstep]
      apply ih σ hinv
      rw [receivePairs_cons, if_neg (by simp [hd]), List.nil_append] at hnd
      exact hnd
    · by_cases h1 : tx.type_ = "RECEIVE"
      · by_cases hp : 0 < tx.btc_amount ∧ tx.inscription_id ≠ ""
        · have hstep : (stepB σ tx).core
              = ⟨σ.core.queue ++ [⟨d, tx.btc_amount, tx.inscription_id, tx.txid⟩],
                 fun s => if s = tx.inscription_id
                          then σ.core.byIns s ++ [⟨d, tx.btc_amount, tx.txid⟩]
                          else σ.core.byIns s⟩ := by
            simp [stepB, hd, h1, receiveB, hp]
          have hpairs : receivePairs (tx :: rest)
              = (tx.inscription_id, tx.txid) :: receivePairs rest := by
            rw [receivePairs_cons, if_pos ⟨by simp [hd], h1, hp.1, hp.2⟩]
            simp
          rw [hpairs] at hnd
          have hmaps : (σ.core.queue
                ++ ([⟨d, tx.btc_amount, tx.inscription_id, tx.txid⟩] : List BLot)).map lotPair
              = σ.core.queue.map lotPair ++ [(tx.inscription_id, tx.txid)] := by
            simp [lotPair]
          have hnd' : (((stepB σ tx).core.queue.map lotPair) ++ receivePairs rest).Nodup := by
            rw [hstep]
            rw [hmaps, List.append_assoc, List.singleton_append]
            exact hnd
          have hinv' : BInv (stepB σ tx).core := by
            rw [hstep]
            have hts : ∀ t, t ≠ tx.inscription_id → tx.inscription_id ≠ t :=
              fun t ht => Ne.symm ht
            refine ⟨?_, ?_⟩
            · intro t
              dsimp only
              by_cases ht : t = tx.inscription_id
              · rw [ht, if_pos rfl, List.filter_append, List.map_append,
                  hinv.1 tx.inscription_id]
                simp [List.filter_cons, projB]
              · rw [if_neg ht, List.filter_append, List.map_append, hinv.1 t]
                simp [List.filter_cons, hts t ht]
            · dsimp only
              rw [hmaps]
              rw [← List.singleton_append, ← List.append_assoc] at hnd
              exact List.Nodup.of_append_left hnd
          exact ih _ hinv' hnd'
        · have hstep : (stepB σ tx).core = σ.core := by
            simp [stepB, hd, h1, receiveB, hp]
          have hpairs : receivePairs (tx :: rest) = receivePairs rest := by
            rw [receivePairs_cons,
              if_neg (fun hcon => hp ⟨hcon.2.2.1, hcon.2.2.2⟩), List.nil_append]
          rw [hpairs] at hnd
          apply ih (stepB σ tx)
          · rw [hstep]
            exact hinv
          · rw [hstep]
            exact hnd
      · have hpairs : receivePairs (tx :: rest) = receivePairs rest := by
          rw [receivePairs_cons, if_neg (fun hcon => h1 hcon.2.1), List.nil_append]
        rw [hpairs] at hnd
        by_cases h2 : tx.type_ = "SEND"
        · have hstep : (stepB σ tx).core
              = (sendB σ.core tx.inscription_id tx.btc_amount).core := by
            simp [stepB, hd, h1, h2]
          apply ih (stepB σ tx)
          · rw [hstep]
            exact BInv_sendB _ _ _ hinv
          · rw [hstep]
            have hsub :
                ((sendB σ.core tx.inscription_id tx.btc_amount).core.queue.map lotPair
                  ++ receivePairs rest).Sublist
                  (σ.core.queue.map lotPair ++ receivePairs rest) :=
              List.Sublist.append
                (List.Sublist.map lotPair (sendB_queue_sublist σ.core _ _))
                (List.Sublist.refl _)
            exact List.Nodup.sublist hsub hnd
        · have hstep : (stepB σ tx).core = σ.core := by
            simp [stepB, hd, h1, h2]
          apply ih (stepB σ tx)
          · rw [hstep]
            exact hinv
          · rw [hstep]
            exact hnd

/-- C10: under policy B, when a SEND pops a purchase from an inscription
queue, the global queue afterwards holds no lot whose inscription id and
txid both match the popped purchase; under the structural invariant (which
holds after processing any input whose lot-creating RECEIVEs have pairwise
distinct (inscription, txid) keys), the matched SEND removes exactly one
lot from the global queue and the unrealized cost basis of the global
queue drops by exactly the cost_basis_consumed of that SEND. -/
theorem matched_send_removes_exactly_one_lot :
    (∀ (core : BCore) (insc : String) (credit : ℚ) (P : BPur) (rest : List BPur),
      insc ≠ "" → core.byIns insc = P :: rest →
      ∀ l ∈ (sendB core insc credit).core.queue,
        ¬ (l.inscription_id = insc ∧ l.txid = P.txid)) ∧
    (∀ (core : BCore) (insc : String) (credit : ℚ) (P : BPur) (rest : List BPur),
      BInv core → insc ≠ "" → core.byIns insc = P :: rest →
      (sendB core insc credit).core.queue.length + 1 = core.queue.length ∧
      unrealized core.queue
        = unrealized (sendB core insc credit).core.queue
          + (sendB core insc credit).cost_basis_used) ∧
    (∀ txs : List Transaction, (receivePairs txs).Nodup → BInv (processB txs).core) := by
  refine ⟨?_, ?_, ?_⟩
  · intro core insc credit P rest h1 hq l hl
    simp only [sendB, h1, if_false, hq] at hl
    have hmem := List.of_mem_filter hl
    rw [decide_eq_true_eq] at hmem
    exact hmem
  · intro core insc credit P rest hinv h1 hq
    have hmap : (core.queue.filter (fun l => l.inscription_id = insc)).map projB
        = P :: rest := by
      rw [hinv.1 insc, hq]
    obtain ⟨f1, f2, f3, f4⟩ := filter_pop_spec insc P rest core.queue hinv.2 hmap
    constructor
    · simpa [sendB, h1, hq] using f3
    · simpa [sendB, h1, hq] using f4
  · intro txs hnodup
    have hinit : BInv (⟨⟨[], fun _ => []⟩, 0, [], initStats⟩ : BState).core :=
      ⟨fun s => rfl, List.nodup_nil⟩
    simpa [processB, initB] using
      BInv_fold txs initB hinit (by simpa [initB] using hnodup)

/-- C10 witness: the theorem applied to a two-lot state where the SEND of
inscription A pops its purchase, and to the one-RECEIVE input whose receive
keys are trivially distinct. -/
theorem matched_send_removes_exactly_one_lot_witness :
    ¬ ((⟨2, 0.02, "B", "rB"⟩ : BLot).inscription_id = "A" ∧
       (⟨2, 0.02, "B", "rB"⟩ : BLot).txid = "rA") ∧
    ((sendB coreTwo "A" 0.05).core.queue.length + 1 = coreTwo.queue.length ∧
      unrealized coreTwo.queue
        = unrealized (sendB coreTwo "A" 0.05).core.queue
          + (sendB coreTwo "A" 0.05).cost_basis_used) ∧
    BInv (processB [rcvA]).core := by
  have hq : coreTwo.byIns "A" = [⟨1, 0.01, "rA"⟩] := by
    simp [coreTwo]
  have hBInv : BInv coreTwo := by
    constructor
    · intro s
      by_cases hA : s = "A"
      · subst hA
        simp [coreTwo, List.filter_cons, projB]
      · by_cases hB : s = "B"
        · subst hB
          simp [coreTwo, List.filter_cons, projB]
        · have hA' : "A" ≠ s := fun hh => hA hh.symm
          have hB' : "B" ≠ s := fun hh => hB hh.symm
          simp [coreTwo, List.filter_cons, hA, hB, hA', hB']
    · simp [coreTwo, lotPair]
  have hmemb : (⟨2, 0.02, "B", "rB"⟩ : BLot) ∈ (sendB coreTwo "A" 0.05).core.queue := by
    simp [sendB, coreTwo, List.filter_cons]
  have hrp : (receivePairs [rcvA]).Nodup := by
    norm_num [receivePairs, List.filter_cons, rcvA]
    simp
  refine ⟨?_, ?_, ?_⟩
  · exact matched_send_removes_exactly_one_lot.1 coreTwo "A" 0.05 ⟨1, 0.01, "rA"⟩ []
      (by decide) hq ⟨2, 0.02, "B", "rB"⟩ hmemb
  · exact matched_send_removes_exactly_one_lot.2.1 coreTwo "A" 0.05 ⟨1, 0.01, "rA"⟩ []
      hBInv (by decide) hq
  · exact matched_send_removes_exactly_one_lot.2.2 [rcvA] hrp
